import Mathlib

set_option linter.unusedVariables false
set_option linter.unnecessarySeqFocus false

deriving instance DecidableEq for Except

namespace Regex

/-
Shallow embedding of src/regex.py: a Thompson-style NFA builder
(build_nfa / finalize_nfa_stack) and a state-set matcher (match_pattern).

Modelling conventions:
 - Nodes live in an arena (a list of NodeData records); every edge is an
   arena index, so Python object identity is index equality.
 - The Python class-level counter State.id_count is threaded explicitly:
   build_nfa receives the incoming global value and returns the outgoing one.
 - Python exceptions (the one designed SyntaxError raise, IndexError from
   pop / [-1] on an empty list, AttributeError from attribute access on None)
   are modelled by the PyError sum; an exception aborts the build, and no
   later observable depends on the state mutated before the raise.
 - Python list stacks: curr_nfa and nfa_stack append/pop at the tail, so we
   store them head-first (list head = Python last element = top of stack);
   the single read of curr_nfa[0] at the end of build_nfa is the bottom,
   i.e. reverse.head?.  The pending-operand lists inside nfa_stack are also
   stored most-recent-first; where Python iterates them in insertion order
   (NFA(other_nfa=nfa_stack[-1]) in finalize) we reverse first.
 - Split.match recurses with no visited set and hence need not terminate on
   the cyclic graphs the builder creates; matchState therefore takes a fuel
   argument, and (for all fuel, result = none) renders that divergence.
 - Python set(next_states) is modelled by List.dedup; the matcher only ever
   observes membership and emptiness of the set, both order-insensitive.
-/

inductive NodeKind where
  | Chr (match_any : Bool) (match_char : Option Char)
  | Split
  | Start
  | End
deriving DecidableEq

structure NodeData where
  kind : NodeKind
  state_id : Int
  next_states : List Nat
deriving DecidableEq

/- The NFA class: a fragment view (start_state, end_state) into the arena. -/
structure NFA where
  start_state : Nat
  end_state : Nat
deriving DecidableEq

/- The finished artifact returned by build_nfa: the arena plus the final
   fragment (curr_nfa[0] after its connect to the End node). -/
structure Automaton where
  nodes : List NodeData
  start_state : Nat
  end_state : Nat
deriving DecidableEq

inductive PyError where
  | pySyntaxError
  | indexError
  | attributeError
deriving DecidableEq

structure BuildCtx where
  id_count : Nat
  nodes : List NodeData
  curr_nfa : List (Option NFA)
  nfa_stack : List (List (Option NFA))
deriving DecidableEq

def modifyAt {α : Type} : List α → Nat → (α → α) → List α
  | [], _, _ => []
  | a :: rest, 0, f => f a :: rest
  | a :: rest, i + 1, f => a :: modifyAt rest i f

/- State.add_next_state: append an edge to the successor list of a node. -/
def add_next_state (ctx : BuildCtx) (i j : Nat) : BuildCtx :=
  { ctx with nodes := modifyAt ctx.nodes i (fun nd => { nd with next_states := nd.next_states ++ [j] }) }

/- Char(char): '.' sets the wildcard flag and leaves match_char unset. -/
def newChar (ctx : BuildCtx) (c : Char) : Nat × BuildCtx :=
  let k := if c = '.' then NodeKind.Chr true none else NodeKind.Chr false (some c)
  (ctx.nodes.length,
   { ctx with id_count := ctx.id_count + 1,
              nodes := ctx.nodes ++ [{ kind := k, state_id := Int.ofNat ctx.id_count, next_states := [] }] })

def newSplit (ctx : BuildCtx) : Nat × BuildCtx :=
  (ctx.nodes.length,
   { ctx with id_count := ctx.id_count + 1,
              nodes := ctx.nodes ++ [{ kind := NodeKind.Split, state_id := Int.ofNat ctx.id_count, next_states := [] }] })

/- End(): passes the fixed identity -1 and does not touch the counter. -/
def newEnd (ctx : BuildCtx) : Nat × BuildCtx :=
  (ctx.nodes.length,
   { ctx with nodes := ctx.nodes ++ [{ kind := NodeKind.End, state_id := -1, next_states := [] }] })

/- NFA.connect: edge from self.end to next.start; end becomes next.end. -/
def connect (ctx : BuildCtx) (a b : NFA) : NFA × BuildCtx :=
  ({ start_state := a.start_state, end_state := b.end_state },
   add_next_state ctx a.end_state b.start_state)

/- NFA.loop: edge from self.end back to self.start. -/
def loop (ctx : BuildCtx) (a : NFA) : BuildCtx :=
  add_next_state ctx a.end_state a.start_state

/- NFA.bypass: edge from self.start directly to self.end. -/
def bypass (ctx : BuildCtx) (a : NFA) : BuildCtx :=
  add_next_state ctx a.start_state a.end_state

/- NFA.wrap: splice another NFA between the start and end of this NFA. -/
def wrap (ctx : BuildCtx) (container inner : NFA) : BuildCtx :=
  add_next_state (add_next_state ctx container.start_state inner.start_state) inner.end_state container.end_state

/- The for-loop of NFA.__init__(other_nfa=...): wrap each listed fragment;
   a None entry raises AttributeError when its start_state is read. -/
def wrapFold (container : NFA) : List (Option NFA) → BuildCtx → Except PyError BuildCtx
  | [], ctx => .ok ctx
  | none :: _, _ => .error .attributeError
  | some r :: rest, ctx => wrapFold container rest (wrap ctx container r)

/- NFA(other_nfa=l) with start and end omitted: two fresh Splits, then wrap
   every member of l between them (in Python iteration order). -/
def mkWrapNFA (ctx : BuildCtx) (others : List (Option NFA)) : Except PyError (NFA × BuildCtx) :=
  let (s, ctx1) := newSplit ctx
  let (e, ctx2) := newSplit ctx1
  let container : NFA := { start_state := s, end_state := e }
  match wrapFold container others ctx2 with
  | .error er => .error er
  | .ok ctx3 => .ok (container, ctx3)

/- finalize_nfa_stack(nfa_stack, curr_nfa).  The pending list is stored
   most-recent-first, hence the reverse before wrapping.  Note that the
   more-than-one branch does not clear the pending list (the source does
   not either; every caller discards it afterwards). -/
def finalize_nfa_stack (ctx : BuildCtx) : Except PyError BuildCtx :=
  match ctx.nfa_stack, ctx.curr_nfa with
  | [], _ => .error .indexError
  | _ :: _, [] => .error .indexError
  | top :: rest, cur :: crest =>
    if top.length > 1 then
      match mkWrapNFA ctx top.reverse with
      | .error e => .error e
      | .ok (w, ctx1) =>
        match cur with
        | some curNfa =>
          let (res, ctx2) := connect ctx1 curNfa w
          .ok { ctx2 with curr_nfa := some res :: crest }
        | none => .ok { ctx1 with curr_nfa := some w :: crest }
    else
      match top with
      | [o] =>
        match cur with
        | some curNfa =>
          match o with
          | none => .error .attributeError
          | some r =>
            let (res, ctx2) := connect ctx curNfa r
            .ok { ctx2 with curr_nfa := some res :: crest, nfa_stack := [] :: rest }
        | none => .ok { ctx with curr_nfa := o :: crest, nfa_stack := [] :: rest }
      | _ => .ok ctx

/- The '?', '*', '+' arm of build_nfa.  The source guard checks the length
   of nfa_stack itself (never zero in practice); popping the last operand
   from an empty pending list is the IndexError crash. -/
def handleQuant (c : Char) (ctx : BuildCtx) : Except PyError BuildCtx :=
  match ctx.nfa_stack with
  | [] => .error .pySyntaxError
  | [] :: _ => .error .indexError
  | (o :: top1) :: rest =>
    if c = '+' then
      match o with
      | none => .error .attributeError
      | some r =>
        let ctx2 := loop { ctx with nfa_stack := top1 :: rest } r
        .ok { ctx2 with nfa_stack := (some r :: top1) :: rest }
    else
      match mkWrapNFA { ctx with nfa_stack := top1 :: rest } [o] with
      | .error e => .error e
      | .ok (w, ctx2) =>
        let ctx3 := bypass ctx2 w
        let ctx4 := if c = '*' then loop ctx3 w else ctx3
        .ok { ctx4 with nfa_stack := (some w :: top1) :: rest }

/- The '|' arm: only acts when the pending list has exactly one entry. -/
def handleAlt (ctx : BuildCtx) : Except PyError BuildCtx :=
  match ctx.nfa_stack with
  | [] => .error .indexError
  | top :: _ =>
    if top.length = 1 then
      match finalize_nfa_stack ctx with
      | .error e => .error e
      | .ok ctx1 =>
        match ctx1.nfa_stack, ctx1.curr_nfa with
        | [], _ => .error .indexError
        | _ :: _, [] => .error .indexError
        | top1 :: rest1, cur :: crest =>
          .ok { ctx1 with nfa_stack := (cur :: top1) :: rest1, curr_nfa := none :: crest }
    else .ok ctx

/- The '(' arm: push an empty frame on both stacks. -/
def handleOpen (ctx : BuildCtx) : Except PyError BuildCtx :=
  .ok { ctx with curr_nfa := none :: ctx.curr_nfa, nfa_stack := [] :: ctx.nfa_stack }

/- The ')' arm: finalize, pop the frame, append curr_nfa.pop() onto the
   parent pending list. -/
def handleClose (ctx : BuildCtx) : Except PyError BuildCtx :=
  match finalize_nfa_stack ctx with
  | .error e => .error e
  | .ok ctx1 =>
    match ctx1.nfa_stack, ctx1.curr_nfa with
    | [], _ => .error .indexError
    | [_], _ => .error .indexError
    | _ :: _ :: _, [] => .error .indexError
    | _ :: top2 :: rest2, cur :: crest =>
      .ok { ctx1 with nfa_stack := (cur :: top2) :: rest2, curr_nfa := crest }

/- The literal arm.  pattern[i-1] for i = 0 is Python negative indexing:
   the last character of the pattern. -/
def handleLit (pattern : List Char) (i : Nat) (c : Char) (ctx : BuildCtx) : Except PyError BuildCtx :=
  let (ci, ctx1) := newChar ctx c
  let charNfa : NFA := { start_state := ci, end_state := ci }
  if (if i = 0 then pattern.getLast? else pattern.get? (i - 1)) = some '|' then
    match ctx1.nfa_stack with
    | [] => .error .indexError
    | top :: rest => .ok { ctx1 with nfa_stack := (some charNfa :: top) :: rest }
  else
    match ctx1.nfa_stack with
    | [] => .error .indexError
    | [] :: rest => .ok { ctx1 with nfa_stack := [some charNfa] :: rest }
    | (none :: _) :: _ => .error .attributeError
    | (some r :: top1) :: rest =>
      let (res, ctx2) := connect ctx1 r charNfa
      .ok { ctx2 with nfa_stack := (some res :: top1) :: rest }

def stepChar (pattern : List Char) (i : Nat) (c : Char) (ctx : BuildCtx) : Except PyError BuildCtx :=
  if c = '?' ∨ c = '*' ∨ c = '+' then handleQuant c ctx
  else if c = '|' then handleAlt ctx
  else if c = '(' then handleOpen ctx
  else if c = ')' then handleClose ctx
  else handleLit pattern i c ctx

def runChars (pattern : List Char) : Nat → List Char → BuildCtx → Except PyError BuildCtx
  | _, [], ctx => .ok ctx
  | i, c :: cs, ctx =>
    match stepChar pattern i c ctx with
    | .error e => .error e
    | .ok ctx1 => runChars pattern (i + 1) cs ctx1

/- curr_nfa = [None]; nfa_stack = [[]]; the counter was just reset to 1. -/
def initCtx : BuildCtx := { id_count := 1, nodes := [], curr_nfa := [none], nfa_stack := [[]] }

def buildCore (pattern : List Char) : Except PyError (Automaton × Nat) :=
  match runChars pattern 0 pattern initCtx with
  | .error e => .error e
  | .ok ctx1 =>
    match finalize_nfa_stack ctx1 with
    | .error e => .error e
    | .ok ctx2 =>
      match ctx2.curr_nfa.reverse.head? with
      | none => .error .indexError
      | some none => .error .attributeError
      | some (some r) =>
        let (e, ctx3) := newEnd ctx2
        let (res, ctx4) := connect ctx3 r { start_state := e, end_state := e }
        .ok ({ nodes := ctx4.nodes, start_state := res.start_state, end_state := res.end_state },
             ctx4.id_count)

/- build_nfa(pattern).  id_count0 is the incoming value of the process-wide
   State.id_count; the first statement of the source overwrites it with 1,
   so the result never depends on it.  The second component is the counter
   value left behind for the next build; after an exception the source
   leaves a partial value there, which no later observable can see because
   every build starts by resetting it (we return 1 in that case). -/
def build_nfa (pattern : List Char) (id_count0 : Nat) : Except PyError Automaton × Nat :=
  match buildCore pattern with
  | .error e => (.error e, 1)
  | .ok (aut, g) => (.ok aut, g)

def build (pattern : List Char) : Except PyError Automaton := (build_nfa pattern 0).1

/- type(state) is End, on the successor index s. -/
def isEndIdx (nodes : List NodeData) (s : Nat) : Bool :=
  match nodes.get? s with
  | some nd =>
    match nd.kind with
    | NodeKind.End => true
    | _ => false
  | none => false

/- The body of the for-loop of Split.match, abstracted over the recursive
   call f: an End successor is appended directly, anything else contributes
   its own match result; contributions are concatenated in order. -/
def splitMatch (nodes : List NodeData) (f : Nat → Option (List Nat)) : List Nat → Option (List Nat)
  | [] => some []
  | s :: rest =>
    if isEndIdx nodes s then
      match splitMatch nodes f rest with
      | none => none
      | some r => some (s :: r)
    else
      match f s with
      | none => none
      | some ms =>
        match splitMatch nodes f rest with
        | none => none
        | some r => some (ms ++ r)

/- State.match dispatched on the node variant.  The Python recursion has no
   termination guard, so the embedding is indexed by a recursion-depth fuel:
   none means the call did not complete within that depth, and a result that
   is none for every fuel renders the infinite recursion (RecursionError). -/
def matchState (nodes : List NodeData) (c : Char) : Nat → Nat → Option (List Nat)
  | 0 => fun _ => none
  | fuel + 1 => fun i =>
    match nodes.get? i with
    | none => some []
    | some nd =>
      match nd.kind with
      | NodeKind.Chr any mc => some (if any || (mc == some c) then nd.next_states else [])
      | NodeKind.End => some []
      | NodeKind.Split => splitMatch nodes (matchState nodes c fuel) nd.next_states
      | NodeKind.Start => splitMatch nodes (matchState nodes c fuel) nd.next_states

/- next_states = []; for s in states: next_states.extend(s.match(char)). -/
def simStep (nodes : List NodeData) (c : Char) (fuel : Nat) : List Nat → Option (List Nat)
  | [] => some []
  | s :: rest =>
    match matchState nodes c fuel s with
    | none => none
    | some ms =>
      match simStep nodes c fuel rest with
      | none => none
      | some msr => some (ms ++ msr)

/- The per-symbol loop of match_pattern: empty active set short-circuits to
   False, otherwise step every active state and collapse to a set; at the
   end test membership of the end state. -/
def simulate (nodes : List NodeData) (endIdx : Nat) (fuel : Nat) : List Char → List Nat → Option Bool
  | [], states => some (states.contains endIdx)
  | c :: rest, states =>
    if states.isEmpty then some false
    else
      match simStep nodes c fuel states with
      | none => none
      | some ns => simulate nodes endIdx fuel rest ns.dedup

/- match_pattern(pattern, string): build, then simulate from {start}. -/
def match_pattern (pattern input : List Char) (fuel : Nat) : Except PyError (Option Bool) :=
  match build pattern with
  | .error e => .error e
  | .ok aut => .ok (simulate aut.nodes aut.end_state fuel input [aut.start_state])

/- The per-successor contribution of the Split.match rule, abstracted over
   the recursive call f: an End successor contributes itself, anything else
   contributes its own match result (C7). -/
def stepContrib (nodes : List NodeData) (f : Nat → Option (List Nat)) (s : Nat) : Option (List Nat) :=
  if isEndIdx nodes s then some [s] else f s

/- All per-successor contributions, in successor order; none as soon as one
   recursive call fails to complete. -/
def stepAll (nodes : List NodeData) (f : Nat → Option (List Nat)) : List Nat → Option (List (List Nat))
  | [] => some []
  | s :: rest =>
    match stepContrib nodes f s, stepAll nodes f rest with
    | some a, some as => some (a :: as)
    | _, _ => none

/- No node of the arena is a Start node (build_nfa never instantiates the
   Start class: the two lines that would are commented out in the source). -/
def KindsOK (nodes : List NodeData) : Prop :=
  ∀ nd ∈ nodes, nd.kind ≠ NodeKind.Start

/- Fragment indices point into the arena. -/
def RefBound (n : Nat) (r : NFA) : Prop :=
  r.start_state < n ∧ r.end_state < n

def OptBound (n : Nat) (o : Option NFA) : Prop :=
  ∀ r, o = some r → RefBound n r

/- The builder invariant: every fragment held by either stack points into
   the arena, and no arena node is a Start node. -/
structure CtxInv (ctx : BuildCtx) : Prop where
  curr : ∀ o ∈ ctx.curr_nfa, OptBound ctx.nodes.length o
  stk : ∀ l ∈ ctx.nfa_stack, ∀ o ∈ l, OptBound ctx.nodes.length o
  kinds : KindsOK ctx.nodes

/- The automaton of build("a"). -/
def autA : Automaton :=
  { nodes := [{ kind := NodeKind.Chr false (some 'a'), state_id := 1, next_states := [1] },
              { kind := NodeKind.End, state_id := -1, next_states := [] }],
    start_state := 0, end_state := 1 }

/- The automaton of build("a*"): node 1 and node 2 are the two Split
   delimiters; bypass gives 1 -> 2 and loop gives 2 -> 1, a Split cycle. -/
def autStar : Automaton :=
  { nodes := [{ kind := NodeKind.Chr false (some 'a'), state_id := 1, next_states := [2] },
              { kind := NodeKind.Split, state_id := 2, next_states := [0, 2] },
              { kind := NodeKind.Split, state_id := 3, next_states := [1, 3] },
              { kind := NodeKind.End, state_id := -1, next_states := [] }],
    start_state := 1, end_state := 3 }

/- The automaton of build("(a)(b)"): the two group fragments end up wrapped
   in parallel between the Splits 2 and 3 (an alternation, not a
   concatenation), and the End node 4 hangs off the exit Split 3. -/
def autConc : Automaton :=
  { nodes := [{ kind := NodeKind.Chr false (some 'a'), state_id := 1, next_states := [3] },
              { kind := NodeKind.Chr false (some 'b'), state_id := 2, next_states := [3] },
              { kind := NodeKind.Split, state_id := 3, next_states := [0, 1] },
              { kind := NodeKind.Split, state_id := 4, next_states := [4] },
              { kind := NodeKind.End, state_id := -1, next_states := [] }],
    start_state := 2, end_state := 4 }

/- The automaton of build("."). -/
def autDot : Automaton :=
  { nodes := [{ kind := NodeKind.Chr true none, state_id := 1, next_states := [1] },
              { kind := NodeKind.End, state_id := -1, next_states := [] }],
    start_state := 0, end_state := 1 }

theorem RefBound_mono {n m : Nat} (h : n ≤ m) {r : NFA} : RefBound n r → RefBound m r :=
  fun ⟨h1, h2⟩ => ⟨lt_of_lt_of_le h1 h, lt_of_lt_of_le h2 h⟩

theorem OptBound_mono {n m : Nat} (h : n ≤ m) {o : Option NFA} : OptBound n o → OptBound m o :=
  fun hb r hr => RefBound_mono h (hb r hr)

theorem modifyAt_length {α : Type} (l : List α) (i : Nat) (f : α → α) :
    (modifyAt l i f).length = l.length := by
  induction l generalizing i with
  | nil => rfl
  | cons a rest ih => cases i <;> simp [modifyAt, ih]

theorem mem_modifyAt {α : Type} {P : α → Prop} {f : α → α}
    (hf : ∀ a, P a → P (f a)) :
    ∀ (l : List α) (i : Nat), (∀ a ∈ l, P a) → ∀ a ∈ modifyAt l i f, P a := by
  intro l
  induction l with
  | nil => intro i _ a ha; simp [modifyAt] at ha
  | cons b rest ih =>
    intro i hl a ha
    cases i with
    | zero =>
      simp only [modifyAt, List.mem_cons] at ha
      rcases ha with rfl | h
      · exact hf _ (hl _ (by simp))
      · exact hl _ (by simp [h])
    | succ j =>
      simp only [modifyAt, List.mem_cons] at ha
      rcases ha with h | h
      · subst h; exact hl _ (by simp)
      · exact ih j (fun x hx => hl x (by simp [hx])) a h

theorem KindsOK_append {l1 l2 : List NodeData} (h1 : KindsOK l1) (h2 : KindsOK l2) :
    KindsOK (l1 ++ l2) := by
  intro nd hnd
  rcases List.mem_append.1 hnd with h | h
  · exact h1 nd h
  · exact h2 nd h

theorem add_next_state_len (ctx : BuildCtx) (i j : Nat) :
    (add_next_state ctx i j).nodes.length = ctx.nodes.length :=
  modifyAt_length ctx.nodes i _

theorem add_next_state_curr (ctx : BuildCtx) (i j : Nat) :
    (add_next_state ctx i j).curr_nfa = ctx.curr_nfa := rfl

theorem add_next_state_stack (ctx : BuildCtx) (i j : Nat) :
    (add_next_state ctx i j).nfa_stack = ctx.nfa_stack := rfl

theorem add_next_state_kinds {ctx : BuildCtx} (i j : Nat) (h : KindsOK ctx.nodes) :
    KindsOK (add_next_state ctx i j).nodes := by
  have h' : ∀ a ∈ ctx.nodes, a.kind ≠ NodeKind.Start := h
  intro nd hnd
  simp only [add_next_state] at hnd
  exact mem_modifyAt (P := fun a => a.kind ≠ NodeKind.Start)
    (f := fun a => { a with next_states := a.next_states ++ [j] })
    (fun a ha => ha) ctx.nodes i h' nd hnd

theorem wrap_len (ctx : BuildCtx) (a b : NFA) : (wrap ctx a b).nodes.length = ctx.nodes.length := by
  simp [wrap, add_next_state_len]

theorem wrap_curr (ctx : BuildCtx) (a b : NFA) : (wrap ctx a b).curr_nfa = ctx.curr_nfa := rfl

theorem wrap_stack (ctx : BuildCtx) (a b : NFA) : (wrap ctx a b).nfa_stack = ctx.nfa_stack := rfl

theorem wrap_kinds {ctx : BuildCtx} (a b : NFA) (h : KindsOK ctx.nodes) :
    KindsOK (wrap ctx a b).nodes :=
  add_next_state_kinds _ _ (add_next_state_kinds _ _ h)

theorem wrapFold_ok {cont : NFA} :
    ∀ {l : List (Option NFA)} {ctx ctx' : BuildCtx}, wrapFold cont l ctx = .ok ctx' →
      ctx'.nodes.length = ctx.nodes.length ∧ ctx'.curr_nfa = ctx.curr_nfa ∧
      ctx'.nfa_stack = ctx.nfa_stack ∧ (KindsOK ctx.nodes → KindsOK ctx'.nodes) := by
  intro l
  induction l with
  | nil => intro ctx ctx' h; cases h; exact ⟨rfl, rfl, rfl, id⟩
  | cons o rest ih =>
    intro ctx ctx' h
    cases o with
    | none => simp [wrapFold] at h
    | some r =>
      obtain ⟨h1, h2, h3, h4⟩ := ih (h : wrapFold cont rest (wrap ctx cont r) = .ok ctx')
      exact ⟨h1.trans (wrap_len ctx cont r), h2.trans (wrap_curr ctx cont r),
             h3.trans (wrap_stack ctx cont r), fun hk => h4 (wrap_kinds cont r hk)⟩

theorem mkWrapNFA_ok {ctx : BuildCtx} {others : List (Option NFA)} {w : NFA} {ctx' : BuildCtx}
    (h : mkWrapNFA ctx others = .ok (w, ctx')) :
    ctx'.nodes.length = ctx.nodes.length + 2 ∧ ctx'.curr_nfa = ctx.curr_nfa ∧
    ctx'.nfa_stack = ctx.nfa_stack ∧ (KindsOK ctx.nodes → KindsOK ctx'.nodes) ∧
    RefBound ctx'.nodes.length w := by
  simp only [mkWrapNFA, newSplit] at h
  split at h
  · exact absurd h (by simp)
  · rename_i ctx3 hw
    obtain ⟨hl, hc, hs, hk⟩ := wrapFold_ok hw
    injection h with h2
    obtain ⟨h3, h4⟩ := Prod.mk.inj h2
    subst h3
    subst h4
    simp only [List.length_append, List.length_cons, List.length_nil] at hl
    refine ⟨by simp [hl], by simp [hc], by simp [hs], ?_, ?_⟩
    · intro hko
      apply hk
      apply KindsOK_append (KindsOK_append hko ?_) ?_ <;>
        intro nd hnd <;> simp at hnd <;> simp [hnd, KindsOK]
    · constructor <;> simp [hl] <;> omega

theorem curr_bound_of_eq {ctx : BuildCtx} {cur : Option NFA} {crest : List (Option NFA)}
    (hinv : CtxInv ctx) (h : ctx.curr_nfa = cur :: crest) :
    OptBound ctx.nodes.length cur ∧ ∀ o ∈ crest, OptBound ctx.nodes.length o := by
  constructor
  · exact hinv.curr cur (by rw [h]; simp)
  · intro o ho; exact hinv.curr o (by rw [h]; simp [ho])

theorem stk_bound_of_eq {ctx : BuildCtx} {top : List (Option NFA)} {rest : List (List (Option NFA))}
    (hinv : CtxInv ctx) (h : ctx.nfa_stack = top :: rest) :
    (∀ o ∈ top, OptBound ctx.nodes.length o) ∧
    ∀ l ∈ rest, ∀ o ∈ l, OptBound ctx.nodes.length o := by
  constructor
  · intro o ho; exact hinv.stk top (by rw [h]; simp) o ho
  · intro l hl o ho; exact hinv.stk l (by rw [h]; simp [hl]) o ho

theorem finalize_inv {ctx ctx' : BuildCtx} (hinv : CtxInv ctx)
    (h : finalize_nfa_stack ctx = .ok ctx') : CtxInv ctx' := by
  unfold finalize_nfa_stack at h
  split at h
  · exact absurd h (by simp)
  · exact absurd h (by simp)
  · rename_i top rest cur crest hstk hcur
    obtain ⟨hcurhd, hcurtl⟩ := curr_bound_of_eq hinv hcur
    obtain ⟨hstkhd, hstktl⟩ := stk_bound_of_eq hinv hstk
    split at h
    · -- more than one pending operand: wrap them all
      split at h
      · exact absurd h (by simp)
      · rename_i w ctx1 hmk
        obtain ⟨hl, hc, hs, hk, hwb⟩ := mkWrapNFA_ok hmk
        have hmono : ctx.nodes.length ≤ ctx1.nodes.length := by rw [hl]; omega
        cases cur with
        | some curNfa =>
          have hcn : RefBound ctx.nodes.length curNfa := hcurhd curNfa rfl
          simp only [connect] at h
          cases h
          refine ⟨?_, ?_, ?_⟩
          · intro o ho
            simp only [add_next_state_len]
            rcases List.mem_cons.1 ho with rfl | ho
            · exact fun r hr => by cases hr; exact ⟨lt_of_lt_of_le hcn.1 hmono, hwb.2⟩
            · exact OptBound_mono hmono (hcurtl o ho)
          · intro l hl2 o ho
            simp only [add_next_state_len, add_next_state_stack] at hl2 ⊢
            rw [hs, hstk] at hl2
            rcases List.mem_cons.1 hl2 with rfl | hl2
            · exact OptBound_mono hmono (hstkhd o ho)
            · exact OptBound_mono hmono (hstktl l hl2 o ho)
          · exact add_next_state_kinds _ _ (hk hinv.kinds)
        | none =>
          cases h
          refine ⟨?_, ?_, ?_⟩
          · intro o ho
            rcases List.mem_cons.1 ho with rfl | ho
            · exact fun r hr => by cases hr; exact hwb
            · exact OptBound_mono hmono (hcurtl o ho)
          · intro l hl2 o ho
            rw [hs, hstk] at hl2
            rcases List.mem_cons.1 hl2 with rfl | hl2
            · exact OptBound_mono hmono (hstkhd o ho)
            · exact OptBound_mono hmono (hstktl l hl2 o ho)
          · exact hk hinv.kinds
    · -- zero or one pending operand
      cases top with
      | nil =>
        cases h
        exact hinv
      | cons o2 top2 =>
        cases top2 with
        | cons b t3 =>
          cases h
          exact hinv
        | nil =>
          cases cur with
          | some curNfa =>
            have hcn : RefBound ctx.nodes.length curNfa := hcurhd curNfa rfl
            cases o2 with
            | none => exact absurd h (by simp)
            | some r =>
              have hrb : RefBound ctx.nodes.length r := hstkhd (some r) (by simp) r rfl
              simp only [connect] at h
              cases h
              refine ⟨?_, ?_, ?_⟩
              · intro o ho
                simp only [add_next_state_len]
                rcases List.mem_cons.1 ho with rfl | ho
                · exact fun r2 hr2 => by cases hr2; exact ⟨hcn.1, hrb.2⟩
                · exact hcurtl o ho
              · intro l hl2 o ho
                simp only [add_next_state_len, add_next_state_stack] at hl2 ⊢
                rcases List.mem_cons.1 hl2 with rfl | hl2
                · simp at ho
                · exact hstktl l hl2 o ho
              · exact add_next_state_kinds _ _ hinv.kinds
          | none =>
            cases h
            refine ⟨?_, ?_, ?_⟩
            · intro o ho
              rcases List.mem_cons.1 ho with rfl | ho
              · exact hstkhd o (by simp)
              · exact hcurtl o ho
            · intro l hl2 o ho
              rcases List.mem_cons.1 hl2 with rfl | hl2
              · simp at ho
              · exact hstktl l hl2 o ho
            · exact hinv.kinds

theorem handleOpen_inv {ctx ctx' : BuildCtx} (hinv : CtxInv ctx)
    (h : handleOpen ctx = .ok ctx') : CtxInv ctx' := by
  cases h
  refine ⟨?_, ?_, hinv.kinds⟩
  · intro o ho
    rcases List.mem_cons.1 ho with rfl | ho
    · exact fun r hr => by cases hr
    · exact hinv.curr o ho
  · intro l hl2 o ho
    rcases List.mem_cons.1 hl2 with rfl | hl2
    · simp at ho
    · exact hinv.stk l hl2 o ho

theorem handleAlt_inv {ctx ctx' : BuildCtx} (hinv : CtxInv ctx)
    (h : handleAlt ctx = .ok ctx') : CtxInv ctx' := by
  unfold handleAlt at h
  split at h
  · exact absurd h (by simp)
  · split at h
    · split at h
      · exact absurd h (by simp)
      · rename_i ctx1 hfin
        have hinv1 := finalize_inv hinv hfin
        split at h
        · exact absurd h (by simp)
        · exact absurd h (by simp)
        · rename_i top1 rest1 cur1 crest1 hstk1 hcur1
          obtain ⟨hcurhd1, hcurtl1⟩ := curr_bound_of_eq hinv1 hcur1
          obtain ⟨hstkhd1, hstktl1⟩ := stk_bound_of_eq hinv1 hstk1
          cases h
          refine ⟨?_, ?_, hinv1.kinds⟩
          · intro o ho
            rcases List.mem_cons.1 ho with rfl | ho
            · exact fun r hr => by cases hr
            · exact hcurtl1 o ho
          · intro l hl2 o ho
            rcases List.mem_cons.1 hl2 with rfl | hl2
            · rcases List.mem_cons.1 ho with rfl | ho
              · exact hcurhd1
              · exact hstkhd1 o ho
            · exact hstktl1 l hl2 o ho
    · cases h
      exact hinv

theorem handleClose_inv {ctx ctx' : BuildCtx} (hinv : CtxInv ctx)
    (h : handleClose ctx = .ok ctx') : CtxInv ctx' := by
  unfold handleClose at h
  split at h
  · exact absurd h (by simp)
  · rename_i ctx1 hfin
    have hinv1 := finalize_inv hinv hfin
    split at h
    · exact absurd h (by simp)
    · exact absurd h (by simp)
    · exact absurd h (by simp)
    · rename_i t0 top2 rest2 cur crest hstk1 hcur1
      obtain ⟨hcurhd1, hcurtl1⟩ := curr_bound_of_eq hinv1 hcur1
      cases h
      refine ⟨?_, ?_, hinv1.kinds⟩
      · intro o ho
        exact hcurtl1 o ho
      · intro l hl2 o ho
        rcases List.mem_cons.1 hl2 with rfl | hl2
        · rcases List.mem_cons.1 ho with rfl | ho
          · exact hcurhd1
          · exact hinv1.stk top2 (by rw [hstk1]; simp) o ho
        · exact hinv1.stk l (by rw [hstk1]; simp [hl2]) o ho

theorem handleQuant_inv {c : Char} {ctx ctx' : BuildCtx} (hinv : CtxInv ctx)
    (h : handleQuant c ctx = .ok ctx') : CtxInv ctx' := by
  unfold handleQuant at h
  split at h
  · exact absurd h (by simp)
  · exact absurd h (by simp)
  · rename_i o top1 rest hstk
    obtain ⟨hstkhd, hstktl⟩ := stk_bound_of_eq hinv hstk
    split at h
    · -- the '+' arm: loop the popped fragment in place
      cases o with
      | none => exact absurd h (by simp)
      | some r =>
        have hrb : RefBound ctx.nodes.length r := hstkhd (some r) (by simp) r rfl
        cases h
        refine ⟨?_, ?_, ?_⟩
        · intro o2 ho
          simp only [loop, add_next_state_len]
          exact hinv.curr o2 ho
        · intro l hl2 o2 ho
          simp only [loop, add_next_state_len]
          have hl2' : l ∈ (some r :: top1) :: rest := hl2
          rcases List.mem_cons.1 hl2' with rfl | hl2'
          · rcases List.mem_cons.1 ho with rfl | ho
            · exact fun r2 hr2 => by cases hr2; exact hrb
            · exact hstkhd o2 (by simp [ho])
          · exact hstktl l hl2' o2 ho
        · exact add_next_state_kinds _ _ hinv.kinds
    · -- the '?' and '*' arms: wrap, bypass, and for '*' also loop
      split at h
      · exact absurd h (by simp)
      · rename_i w ctx2 hmk
        obtain ⟨hl, hc, hs, hk, hwb⟩ := mkWrapNFA_ok hmk
        have hl' : ctx2.nodes.length = ctx.nodes.length + 2 := hl
        have hmono : ctx.nodes.length ≤ ctx2.nodes.length := by rw [hl']; omega
        by_cases hstar : c = '*'
        · simp only [hstar, if_pos] at h
          cases h
          refine ⟨?_, ?_, ?_⟩
          · intro o2 ho
            simp only [loop, bypass, add_next_state_len]
            have ho' : o2 ∈ ctx.curr_nfa := by simp only [loop, bypass, add_next_state_curr, hc] at ho; exact ho
            exact OptBound_mono hmono (hinv.curr o2 ho')
          · intro l hl2 o2 ho
            simp only [loop, bypass, add_next_state_len]
            have hl2' : l ∈ (some w :: top1) :: rest := hl2
            rcases List.mem_cons.1 hl2' with rfl | hl2'
            · rcases List.mem_cons.1 ho with rfl | ho
              · exact fun r2 hr2 => by cases hr2; exact hwb
              · exact OptBound_mono hmono (hstkhd o2 (by simp [ho]))
            · exact OptBound_mono hmono (hstktl l hl2' o2 ho)
          · exact add_next_state_kinds _ _ (add_next_state_kinds _ _ (hk hinv.kinds))
        · simp only [hstar, if_neg, if_false] at h
          cases h
          refine ⟨?_, ?_, ?_⟩
          · intro o2 ho
            simp only [bypass, add_next_state_len]
            have ho' : o2 ∈ ctx.curr_nfa := by simp only [loop, bypass, add_next_state_curr, hc] at ho; exact ho
            exact OptBound_mono hmono (hinv.curr o2 ho')
          · intro l hl2 o2 ho
            simp only [bypass, add_next_state_len]
            have hl2' : l ∈ (some w :: top1) :: rest := hl2
            rcases List.mem_cons.1 hl2' with rfl | hl2'
            · rcases List.mem_cons.1 ho with rfl | ho
              · exact fun r2 hr2 => by cases hr2; exact hwb
              · exact OptBound_mono hmono (hstkhd o2 (by simp [ho]))
            · exact OptBound_mono hmono (hstktl l hl2' o2 ho)
          · exact add_next_state_kinds _ _ (hk hinv.kinds)

theorem handleLit_inv {pattern : List Char} {i : Nat} {c : Char} {ctx ctx' : BuildCtx}
    (hinv : CtxInv ctx) (h : handleLit pattern i c ctx = .ok ctx') : CtxInv ctx' := by
  have hkapp : KindsOK (ctx.nodes ++
      [{ kind := if c = '.' then NodeKind.Chr true none else NodeKind.Chr false (some c),
         state_id := Int.ofNat ctx.id_count, next_states := [] }]) := by
    apply KindsOK_append hinv.kinds
    intro nd hnd
    simp at hnd
    subst hnd
    split <;> simp
  have hlen1 : ∀ nd : NodeData, (ctx.nodes ++ [nd]).length = ctx.nodes.length + 1 :=
    fun nd => by simp
  unfold handleLit at h
  simp only [newChar] at h
  generalize hp : (if i = 0 then pattern.getLast? else pattern.get? (i - 1)) = prev at h
  split at h
  · -- previous pattern character was the '|': start a fresh alternative
    split at h
    · exact absurd h (by simp)
    · rename_i top rest hstk
      obtain ⟨hstkhd, hstktl⟩ := stk_bound_of_eq hinv hstk
      cases h
      refine ⟨?_, ?_, ?_⟩
      · intro o ho
        simp only [hlen1]
        exact OptBound_mono (by omega) (hinv.curr o ho)
      · intro l hl2 o ho
        simp only [hlen1]
        have hl2' : l ∈ (some { start_state := ctx.nodes.length, end_state := ctx.nodes.length } :: top) :: rest := hl2
        rcases List.mem_cons.1 hl2' with rfl | hl2'
        · rcases List.mem_cons.1 ho with rfl | ho
          · exact fun r hr => by cases hr; exact ⟨Nat.lt_succ_self _, Nat.lt_succ_self _⟩
          · exact OptBound_mono (by omega) (hstkhd o (by simp [ho]))
        · exact OptBound_mono (by omega) (hstktl l hl2' o ho)
      · exact hkapp
  · split at h
    · exact absurd h (by simp)
    · rename_i rest hstk
      obtain ⟨hstkhd, hstktl⟩ := stk_bound_of_eq hinv hstk
      cases h
      refine ⟨?_, ?_, ?_⟩
      · intro o ho
        simp only [hlen1]
        exact OptBound_mono (by omega) (hinv.curr o ho)
      · intro l hl2 o ho
        simp only [hlen1]
        have hl2' : l ∈ [some { start_state := ctx.nodes.length, end_state := ctx.nodes.length }] :: rest := hl2
        rcases List.mem_cons.1 hl2' with rfl | hl2'
        · rcases List.mem_cons.1 ho with rfl | ho
          · exact fun r hr => by cases hr; exact ⟨Nat.lt_succ_self _, Nat.lt_succ_self _⟩
          · simp at ho
        · exact OptBound_mono (by omega) (hstktl l hl2' o ho)
      · exact hkapp
    · exact absurd h (by simp)
    · rename_i r top1 rest hstk
      obtain ⟨hstkhd, hstktl⟩ := stk_bound_of_eq hinv hstk
      have hrb : RefBound ctx.nodes.length r := hstkhd (some r) (by simp) r rfl
      simp only [connect] at h
      cases h
      refine ⟨?_, ?_, ?_⟩
      · intro o ho
        simp only [add_next_state_len, hlen1]
        exact OptBound_mono (by omega) (hinv.curr o ho)
      · intro l hl2 o ho
        simp only [add_next_state_len, hlen1]
        have hl2' : l ∈ (some { start_state := r.start_state, end_state := ctx.nodes.length } :: top1) :: rest := hl2
        rcases List.mem_cons.1 hl2' with rfl | hl2'
        · rcases List.mem_cons.1 ho with rfl | ho
          · exact fun r2 hr2 => by
              cases hr2
              exact ⟨Nat.lt_succ_of_lt hrb.1, Nat.lt_succ_self _⟩
          · exact OptBound_mono (by omega) (hstkhd o (by simp [ho]))
        · exact OptBound_mono (by omega) (hstktl l hl2' o ho)
      · exact add_next_state_kinds _ _ hkapp

theorem stepChar_inv {pattern : List Char} {i : Nat} {c : Char} {ctx ctx' : BuildCtx}
    (hinv : CtxInv ctx) (h : stepChar pattern i c ctx = .ok ctx') : CtxInv ctx' := by
  unfold stepChar at h
  split at h
  · exact handleQuant_inv hinv h
  · split at h
    · exact handleAlt_inv hinv h
    · split at h
      · exact handleOpen_inv hinv h
      · split at h
        · exact handleClose_inv hinv h
        · exact handleLit_inv hinv h

theorem runChars_inv {pattern : List Char} :
    ∀ {i : Nat} {cs : List Char} {ctx ctx' : BuildCtx}, CtxInv ctx →
      runChars pattern i cs ctx = .ok ctx' → CtxInv ctx' := by
  intro i cs
  induction cs generalizing i with
  | nil =>
    intro ctx ctx' hinv h
    cases h
    exact hinv
  | cons c cs ih =>
    intro ctx ctx' hinv h
    unfold runChars at h
    split at h
    · exact absurd h (by simp)
    · rename_i ctx1 hstep
      exact ih (stepChar_inv hinv hstep) h

theorem initCtx_inv : CtxInv initCtx := by
  refine ⟨?_, ?_, ?_⟩
  · intro o ho
    simp [initCtx] at ho
    subst ho
    intro r hr
    cases hr
  · intro l hl o ho
    simp [initCtx] at hl
    subst hl
    simp at ho
  · intro nd hnd
    simp [initCtx] at hnd

theorem mem_of_reverse_head {α : Type} {l : List α} {x : α}
    (h : l.reverse.head? = some x) : x ∈ l := by
  cases hr : l.reverse with
  | nil => rw [hr] at h; exact absurd h (by simp)
  | cons a t =>
    rw [hr] at h
    have hx : a = x := by simpa using h
    subst hx
    have : a ∈ l.reverse := by rw [hr]; simp
    exact List.mem_reverse.mp this

theorem buildCore_ok {p : List Char} {aut : Automaton} {g : Nat}
    (h : buildCore p = .ok (aut, g)) :
    aut.start_state < aut.end_state ∧ aut.end_state < aut.nodes.length ∧ KindsOK aut.nodes := by
  unfold buildCore at h
  split at h
  · exact absurd h (by simp)
  · rename_i ctx1 hrun
    split at h
    · exact absurd h (by simp)
    · rename_i ctx2 hfin
      have hinv2 : CtxInv ctx2 := finalize_inv (runChars_inv initCtx_inv hrun) hfin
      split at h
      · exact absurd h (by simp)
      · exact absurd h (by simp)
      · rename_i r hr0
        have hrmem : some r ∈ ctx2.curr_nfa := mem_of_reverse_head hr0
        have hrb : RefBound ctx2.nodes.length r := hinv2.curr (some r) hrmem r rfl
        simp only [newEnd, connect] at h
        injection h with h2
        obtain ⟨h3, h4⟩ := Prod.mk.inj h2
        subst h3
        refine ⟨hrb.1, ?_, ?_⟩
        · simp only [add_next_state_len, List.length_append, List.length_cons, List.length_nil]
          omega
        · apply add_next_state_kinds
          apply KindsOK_append hinv2.kinds
          intro nd hnd
          simp at hnd
          subst hnd
          simp

theorem build_ok_core {p : List Char} {aut : Automaton} (h : build p = .ok aut) :
    ∃ g, buildCore p = .ok (aut, g) := by
  unfold build build_nfa at h
  split at h
  · exact absurd h (by simp)
  · rename_i aut0 g heq
    simp only at h
    cases h
    exact ⟨g, heq⟩

theorem get?_mem_of_eq {α : Type} : ∀ {l : List α} {n : Nat} {a : α}, l.get? n = some a → a ∈ l := by
  intro l
  induction l with
  | nil => intro n a h; exact absurd h (by simp)
  | cons b t ih =>
    intro n a h
    cases n with
    | zero =>
      cases h
      exact List.mem_cons_self _ _
    | succ m => exact List.mem_cons_of_mem _ (ih h)

theorem get?_total_of_lt {α : Type} : ∀ {l : List α} {n : Nat}, n < l.length → ∃ a, l.get? n = some a := by
  intro l
  induction l with
  | nil => intro n h; simp at h
  | cons b t ih =>
    intro n h
    cases n with
    | zero => exact ⟨b, rfl⟩
    | succ m => exact ih (by simpa using h)

/-- C6 (amended): for every pattern on which build succeeds, no node of the
returned automaton is a Start node; in particular the entry node exists in
the arena and is not a Start node.  (The original claim, that the entry is
the distinguished Start node with identity 0, is refuted by
c6_counterexample: build_nfa never instantiates the Start class — the two
lines that would are commented out — so the entry is simply the entry of
the outermost fragment, a Char or Split node.) -/
theorem c6_entry_never_start : ∀ (p : List Char) (aut : Automaton), build p = .ok aut →
    (∀ i nd, aut.nodes.get? i = some nd → nd.kind ≠ NodeKind.Start) ∧
    ∃ nd, aut.nodes.get? aut.start_state = some nd ∧ nd.kind ≠ NodeKind.Start := by
  intro p aut hb
  obtain ⟨g, hcore⟩ := build_ok_core hb
  obtain ⟨hlt, hend, hkinds⟩ := buildCore_ok hcore
  have hstart_lt : aut.start_state < aut.nodes.length := lt_trans hlt hend
  constructor
  · intro i nd hget
    exact hkinds nd (get?_mem_of_eq hget)
  · obtain ⟨nd, hnd⟩ := get?_total_of_lt hstart_lt
    exact ⟨nd, hnd, hkinds nd (get?_mem_of_eq hnd)⟩

/-- C6 counterexample: build("a") succeeds and the entry node of its
automaton is the Char node (identity 1), not a Start node (identity 0). -/
theorem c6_counterexample :
    build ['a'] = .ok autA ∧
    (autA.nodes.get? autA.start_state).map NodeData.kind = some (NodeKind.Chr false (some 'a')) ∧
    NodeKind.Chr false (some 'a') ≠ NodeKind.Start :=
  ⟨by decide, by decide, by decide⟩

/-- C6 witness: the amended theorem applied to the concrete pattern "a". -/
theorem c6_witness :
    ∃ nd, autA.nodes.get? autA.start_state = some nd ∧ nd.kind ≠ NodeKind.Start :=
  (c6_entry_never_start ['a'] autA (by decide)).2

/-- C9: build_nfa resets the process-wide identity counter to 1 on entry
(State.id_count = 1), so its result never depends on the counter value left
behind by earlier builds: two successive build calls with the same pattern
return equal (hence structurally isomorphic) automata, and in particular
re-running build on the counter state left by a previous build of the same
pattern changes nothing. -/
theorem c9_build_counter_independent :
    ∀ (p : List Char) (g1 g2 : Nat),
      (build_nfa p g1).1 = (build_nfa p g2).1 ∧
      (build_nfa p ((build_nfa p g1).2)).1 = (build_nfa p g1).1 :=
  fun p g1 g2 => ⟨rfl, rfl⟩

/-- C10 (implicit claim, confirmed): for every pattern on which build
succeeds, match of the empty input is False: the initial active set is the
bare singleton of the entry node with no epsilon closure, and the end state
is the freshly created End node, whose arena index equals the arena size
before it was appended and hence differs from the entry index. -/
theorem c10_empty_input_never_matches :
    ∀ (p : List Char) (aut : Automaton) (fuel : Nat), build p = .ok aut →
      aut.start_state ≠ aut.end_state ∧ match_pattern p [] fuel = .ok (some false) := by
  intro p aut fuel hb
  obtain ⟨g, hcore⟩ := build_ok_core hb
  obtain ⟨hlt, hend, hkinds⟩ := buildCore_ok hcore
  have hne : aut.start_state ≠ aut.end_state := Nat.ne_of_lt hlt
  refine ⟨hne, ?_⟩
  have hcont : ([aut.start_state] : List Nat).contains aut.end_state = false := by
    simp only [List.contains_cons, List.contains_nil, Bool.or_false]
    exact beq_eq_false_iff_ne.2 (fun hc => hne hc.symm)
  unfold match_pattern
  rw [hb]
  show Except.ok (simulate aut.nodes aut.end_state fuel [] [aut.start_state]) =
    Except.ok (some false)
  show Except.ok (some (([aut.start_state] : List Nat).contains aut.end_state)) =
    Except.ok (some false)
  rw [hcont]

/-- C10 witness: the theorem applied to the concrete pattern "a". -/
theorem c10_witness :
    autA.start_state ≠ autA.end_state ∧ match_pattern ['a'] [] 1 = .ok (some false) :=
  c10_empty_input_never_matches ['a'] autA 1 (by decide)

/-- C3: the claim says build("") succeeds and matches only the empty string;
in the code the loop body never runs, curr_nfa[0] is still None, and the
final curr_nfa[0].connect(...) raises AttributeError, which match_pattern
propagates.  (code_bug: the spec is the clear intent, the code crashes.) -/
theorem c3_empty_pattern_crashes :
    ∀ (g : Nat) (fuel : Nat),
      (build_nfa [] g).1 = .error PyError.attributeError ∧
      match_pattern [] [] fuel = .error PyError.attributeError :=
  fun g fuel => ⟨rfl, rfl⟩

/-- C4: the claim says build("*") and build("(a") raise the designated
parse errors; in the code build("*") dies popping an empty operand list
(IndexError: the only designed guard tests len(nfa_stack), which is never
zero) and build("(a") dies calling connect on None (AttributeError).
(code_bug: the spec explicitly demands a reported error rather than an
internal out-of-range or attribute access failure.) -/
theorem c4_malformed_patterns_crash :
    ∀ g : Nat,
      (build_nfa ['*'] g).1 = .error PyError.indexError ∧
      (build_nfa ['(', 'a'] g).1 = .error PyError.attributeError :=
  fun g => ⟨rfl, rfl⟩

/-- C2: the claim says match("a*","") and match("a?","") are true; in the
code the initial active set {entry} is tested for the End node without any
epsilon closure, so both calls return False.  (code_bug: zero-repetition
acceptance is the defining property of the bypass edge and the spec states
it verbatim.) -/
theorem c2_star_and_opt_reject_empty :
    ∀ fuel : Nat,
      match_pattern ['a', '*'] [] fuel = .ok (some false) ∧
      match_pattern ['a', '?'] [] fuel = .ok (some false) :=
  fun fuel => ⟨rfl, rfl⟩

theorem splitMatch_eq_stepAll (nodes : List NodeData) (f : Nat → Option (List Nat)) :
    ∀ l : List Nat, splitMatch nodes f l = (stepAll nodes f l).map List.flatten := by
  intro l
  induction l with
  | nil => rfl
  | cons s rest ih =>
    unfold splitMatch stepAll stepContrib
    by_cases he : isEndIdx nodes s
    · rw [if_pos he, if_pos he, ih]
      cases h : stepAll nodes f rest <;> simp [h]
    · rw [if_neg he, if_neg he]
      cases hf : f s with
      | none => simp
      | some ms =>
        rw [ih]
        cases h : stepAll nodes f rest <;> simp [h]

/-- C7: Split.match (one symbol step from a Split node, at recursion budget
fuel + 1) equals the concatenation, over the successors s of the node in order,
of the per-successor contributions: the one-element list [s] when s is an
End node, and the recursive s.match(symbol) (at budget fuel) otherwise. -/
theorem c7_split_step_rule :
    ∀ (nodes : List NodeData) (c : Char) (fuel i : Nat) (nd : NodeData),
      nodes.get? i = some nd → nd.kind = NodeKind.Split →
      matchState nodes c (fuel + 1) i =
        (stepAll nodes (matchState nodes c fuel) nd.next_states).map List.flatten := by
  intro nodes c fuel i nd hget hkind
  show (match nodes.get? i with
    | none => some []
    | some nd =>
      match nd.kind with
      | NodeKind.Chr any mc => some (if any || (mc == some c) then nd.next_states else [])
      | NodeKind.End => some []
      | NodeKind.Split => splitMatch nodes (matchState nodes c fuel) nd.next_states
      | NodeKind.Start => splitMatch nodes (matchState nodes c fuel) nd.next_states) =
    (stepAll nodes (matchState nodes c fuel) nd.next_states).map List.flatten
  rw [hget]
  show (match nd.kind with
    | NodeKind.Chr any mc => some (if any || (mc == some c) then nd.next_states else [])
    | NodeKind.End => some []
    | NodeKind.Split => splitMatch nodes (matchState nodes c fuel) nd.next_states
    | NodeKind.Start => splitMatch nodes (matchState nodes c fuel) nd.next_states) = _
  rw [hkind]
  exact splitMatch_eq_stepAll nodes (matchState nodes c fuel) nd.next_states

/-- C7 witness: the rule applied to the exit Split (node 3) of the
automaton of "(a)(b)", whose only successor is the End node 4. -/
theorem c7_witness :
    matchState autConc.nodes 'b' 2 3 =
      (stepAll autConc.nodes (matchState autConc.nodes 'b' 1) [4]).map List.flatten :=
  c7_split_step_rule autConc.nodes 'b' 1 3
    { kind := NodeKind.Split, state_id := 4, next_states := [4] } rfl rfl

/-- C8: Char.match returns the successor list exactly when the symbol equals
match_char or the wildcard flag is set, and the empty list otherwise (the
embedding is a pure function, so there are no side effects); consequently
match(".", x) is true for every single symbol x and match(".", "") is
false. -/
theorem c8_char_step_rule :
    (∀ (nodes : List NodeData) (c : Char) (fuel i : Nat) (nd : NodeData)
        (any : Bool) (mc : Option Char),
      nodes.get? i = some nd → nd.kind = NodeKind.Chr any mc →
      matchState nodes c (fuel + 1) i =
        some (if any || (mc == some c) then nd.next_states else [])) ∧
    (∀ x : Char, match_pattern ['.'] [x] 1 = .ok (some true)) ∧
    match_pattern ['.'] [] 1 = .ok (some false) := by
  refine ⟨?_, ?_, rfl⟩
  · intro nodes c fuel i nd any mc hget hkind
    show (match nodes.get? i with
      | none => some []
      | some nd =>
        match nd.kind with
        | NodeKind.Chr any mc => some (if any || (mc == some c) then nd.next_states else [])
        | NodeKind.End => some []
        | NodeKind.Split => splitMatch nodes (matchState nodes c fuel) nd.next_states
        | NodeKind.Start => splitMatch nodes (matchState nodes c fuel) nd.next_states) =
      some (if any || (mc == some c) then nd.next_states else [])
    rw [hget]
    show (match nd.kind with
      | NodeKind.Chr any mc => some (if any || (mc == some c) then nd.next_states else [])
      | NodeKind.End => some []
      | NodeKind.Split => splitMatch nodes (matchState nodes c fuel) nd.next_states
      | NodeKind.Start => splitMatch nodes (matchState nodes c fuel) nd.next_states) = _
    rw [hkind]
  · intro x
    rfl

/-- C8 witness: the Char rule applied to the wildcard node of the automaton
of ".", at an arbitrary concrete symbol. -/
theorem c8_witness : matchState autDot.nodes 'q' 1 0 = some [1] := by
  simpa using c8_char_step_rule.1 autDot.nodes 'q' 0 0
    { kind := NodeKind.Chr true none, state_id := 1, next_states := [1] } true none rfl rfl


/-- C5: the claim says a group close appends the closed group onto the
concatenation-in-progress of the parent frame so that adjacent groups concatenate.  The quoted
observations do hold — match("(a)(b)","ab") is true and
match("(a)(b)","b") is false — but the mechanism is wrong: the code
appends the group fragment to the pending-operand list of the parent, and
finalize wraps multiple pending operands in parallel (alternation), so
match("(a)(b)","ba") is also true, which concatenation forbids
(code_bug; fuel 2 is enough recursion depth for this cycle-free
automaton). -/
theorem c5_adjacent_groups_alternate :
    match_pattern ['(', 'a', ')', '(', 'b', ')'] ['a', 'b'] 2 = .ok (some true) ∧
    match_pattern ['(', 'a', ')', '(', 'b', ')'] ['b'] 2 = .ok (some false) ∧
    match_pattern ['(', 'a', ')', '(', 'b', ')'] ['b', 'a'] 2 = .ok (some true) := by
  refine ⟨?_, ?_, ?_⟩ <;>
    simp [match_pattern, build, build_nfa, buildCore, runChars, stepChar, handleOpen, handleLit,
      handleClose, handleQuant, handleAlt, finalize_nfa_stack, mkWrapNFA, wrapFold, newChar,
      newSplit, newEnd, connect, wrap, loop, bypass, add_next_state, modifyAt, initCtx,
      simulate, simStep, matchState, splitMatch, isEndIdx, List.dedup]

theorem astar_diverges :
    ∀ n : Nat, matchState autStar.nodes 'a' n 1 = none ∧
      matchState autStar.nodes 'a' n 2 = none := by
  intro n
  induction n with
  | zero => exact ⟨rfl, rfl⟩
  | succ n ih =>
    constructor
    · show splitMatch autStar.nodes (matchState autStar.nodes 'a' n) [0, 2] = none
      cases n with
      | zero => rfl
      | succ m =>
        have h0 : matchState autStar.nodes 'a' (m + 1) 0 = some [2] := rfl
        have he0 : isEndIdx autStar.nodes 0 = false := rfl
        have he2 : isEndIdx autStar.nodes 2 = false := rfl
        simp [splitMatch, he0, he2, h0, ih.2]
    · show splitMatch autStar.nodes (matchState autStar.nodes 'a' n) [1, 3] = none
      have he1 : isEndIdx autStar.nodes 1 = false := rfl
      simp [splitMatch, he1, ih.1]

/-- C1: the claim says match always terminates (no backtracking, bounded
per-symbol work) on well-formed patterns, in particular those with '*'.
In the code the '*' construction makes the two Split delimiters point at
each other (bypass start->end, loop end->start) and Split.match recurses
through Split successors with no visited set, so the very first symbol
step of match("a*","a") recurses between nodes 1 and 2 forever: no finite
recursion depth (fuel) completes it, i.e. Python dies with RecursionError
(the demo shipped in the repository hits this at match_pattern of a*a+ on aaa).
(code_bug.) -/
theorem c1_star_match_diverges :
    ∀ fuel : Nat, match_pattern ['a', '*'] ['a'] fuel = .ok none := by
  intro fuel
  have hb : build ['a', '*'] = .ok autStar := by decide
  unfold match_pattern
  rw [hb]
  show Except.ok (simulate autStar.nodes autStar.end_state fuel ['a'] [autStar.start_state]) =
    .ok none
  have hm : matchState autStar.nodes 'a' fuel 1 = none := (astar_diverges fuel).1
  have hs : autStar.start_state = 1 := rfl
  have he : autStar.end_state = 3 := rfl
  rw [hs, he]
  simp [simulate, simStep, hm]

end Regex
